import Mathlib

/-!
Verification of the hybrid retrieval-and-context-assembly engine of a
journaling application: safety classification (llm/safety.rs), text
chunking (ml/embeddings.rs), vector-channel aggregation, rank fusion and
hybrid search (db/search.rs), and context budget fitting (llm/chat.rs).

The Rust code is shallowly embedded: strings are Lean strings or lists of
characters, f64/f32 scores are rationals, SQLite stores are association
lists, and Rust HashMap iteration order is an explicit list parameter
constrained to be a permutation of the canonical association list built in
insertion order.  Fallible code (panics, NotFound propagation) is modelled
with Option/Except.
-/

set_option maxRecDepth 4000

namespace MindScribe

/-! ### Character and byte utilities -/

/-- The apostrophe character (U+0027), used inside string constants. -/
def apos : Char := Char.ofNat 39

/-- Whitespace as matched by the regex class and by str::trim
(ASCII subset of the Unicode White_Space property; the repository's
separators and pattern texts are ASCII). -/
def isWs (c : Char) : Bool :=
  c = ' ' || c = Char.ofNat 9 || c = Char.ofNat 10 || c = Char.ofNat 11 ||
  c = Char.ofNat 12 || c = Char.ofNat 13

/-- Word characters for the regex word boundary assertion: [0-9A-Za-z_]. -/
def isWordChar (c : Char) : Bool :=
  c.isAlphanum || c = '_'

/-- ASCII lowercasing of one character, modelling str::to_lowercase on the
ASCII texts the safety patterns are written in. -/
def toLowerChar (c : Char) : Char :=
  if 'A' ≤ c ∧ c ≤ 'Z' then Char.ofNat (c.toNat + 32) else c

/-- Lowercase a string character by character (ASCII model of
str::to_lowercase). -/
def lowerStr (s : String) : List Char :=
  s.toList.map toLowerChar

/-- UTF-8 encoded size of one character, as used by Rust str::len(). -/
def charBytes (c : Char) : Nat :=
  if c.toNat < 0x80 then 1
  else if c.toNat < 0x800 then 2
  else if c.toNat < 0x10000 then 3
  else 4

/-- Byte length of a character list under UTF-8, i.e. Rust str::len(). -/
def byteLen (l : List Char) : Nat :=
  (l.map charBytes).sum

/-- Byte length of a Lean string under UTF-8, i.e. Rust str::len(). -/
def strBytes (s : String) : Nat :=
  byteLen s.toList

/-! ### Safety gate (src-tauri/src/llm/safety.rs)

Each pattern in CRISIS_KEYWORDS / DISTRESS_KEYWORDS is a literal phrase
wrapped in word boundaries; the one alternation/option pattern
(self[- ]?harm(ing)?) is expanded into its six literal variants, which is
equivalent for RegexSet::is_match. -/

/-- Does `phrase` occur at the start of `t` with a word boundary after it?
All keyword phrases start and end with word characters, so the regex \b
before the phrase is: previous character absent or not a word character,
and \b after: next character absent or not a word character. -/
def wordBoundedAt (phrase t : List Char) : Bool :=
  phrase.isPrefixOf t &&
    (match t.drop phrase.length with
     | [] => true
     | c :: _ => !isWordChar c)

/-- Scan `t` for a word-boundary-delimited occurrence of `phrase`;
`prevWord` records whether the character just before the current position
is a word character. -/
def scanMatch (phrase : List Char) : Bool → List Char → Bool
  | _, [] => false
  | prevWord, c :: rest =>
    ((!prevWord) && wordBoundedAt phrase (c :: rest)) ||
      scanMatch phrase (isWordChar c) rest

/-- RegexSet::is_match for a set of word-bounded literal phrases. -/
def anyPhraseMatch (phrases : List String) (t : List Char) : Bool :=
  phrases.any (fun p => scanMatch p.toList false t)

/-- CRISIS_KEYWORDS, with self[- ]?harm(ing)? expanded to its variants. -/
def CRISIS_KEYWORDS : List String :=
  ["suicide", "kill myself", "end my life", "want to die",
   "self-harm", "self harm", "selfharm",
   "self-harming", "self harming", "selfharming",
   "hurt myself", "no reason to live", "ending it all",
   "take my own life", "cut myself", "kill themselves", "suicidal"]

/-- DISTRESS_KEYWORDS. -/
def DISTRESS_KEYWORDS : List String :=
  ["hopeless", "worthless", "can" ++ String.singleton apos ++ "t go on",
   "want to disappear", "no point", "give up"]

/-- Safety level classification. -/
inductive SafetyLevel where
  | Safe
  | Distress
  | Crisis
deriving DecidableEq, Repr

/-- Result of a safety check. -/
structure SafetyResult where
  safe : Bool
  level : SafetyLevel
  intervention : Option String
deriving DecidableEq, Repr

/-- One emotion label with its classifier score (f32 modelled as ℚ). -/
structure EmotionPrediction where
  label : String
  score : ℚ
deriving DecidableEq, Repr

/-- Crisis intervention message shown to the user (abridged to its first
line; only its presence matters to the verified properties). -/
def CRISIS_INTERVENTION : String :=
  "I" ++ String.singleton apos ++
  "m concerned about what you" ++ String.singleton apos ++
  "ve shared. Your wellbeing matters."

/-- Message shown for distress-level content. -/
def DISTRESS_MESSAGE : String :=
  "I hear that you" ++ String.singleton apos ++
  "re going through a difficult time. Your feelings are valid."

/-- Message shown when emotion analysis detects high distress. -/
def EMOTION_DISTRESS_MESSAGE : String :=
  "I notice you might be going through a difficult time. Remember, it" ++
  String.singleton apos ++
  "s okay to feel this way, and you don" ++ String.singleton apos ++
  "t have to face it alone."

/-- The risk-emotion test from check_with_emotions: the lowercased label is
one of the fixed risk set. -/
def isRiskEmotion (label : List Char) : Bool :=
  label = "grief".toList || label = "fear".toList || label = "sadness".toList ||
  label = "nervousness".toList || label = "disappointment".toList

/-- SafetyFilter::check_with_emotions. -/
def check_with_emotions (text : String)
    (emotions : Option (List EmotionPrediction)) : SafetyResult :=
  let lower := lowerStr text
  if anyPhraseMatch CRISIS_KEYWORDS lower then
    { safe := false, level := .Crisis, intervention := some CRISIS_INTERVENTION }
  else if anyPhraseMatch DISTRESS_KEYWORDS lower then
    { safe := true, level := .Distress, intervention := some DISTRESS_MESSAGE }
  else
    match emotions with
    | some es =>
      if es.any (fun e =>
          isRiskEmotion ((lowerStr e.label)) && e.score > 0.5) then
        { safe := true, level := .Distress,
          intervention := some EMOTION_DISTRESS_MESSAGE }
      else
        { safe := true, level := .Safe, intervention := none }
    | none => { safe := true, level := .Safe, intervention := none }

/-! ### Chunker (src-tauri/src/ml/embeddings.rs, chunk_text)

The sentence separator regex is r"(?:[.!?]\s+|\n\n+)"; the regex crate uses
leftmost-first alternation with greedy repetition, so at each position the
first alternative (one of . ! ? followed by a maximal nonempty whitespace
run) is tried before the second (a maximal run of at least two newlines).
Rust operates on byte indices; the byte slice
overlap_buffer[len - overlap_chars..] panics when the index is not a UTF-8
character boundary, which the model expresses by returning none. -/

/-- Length (in characters; the separators are ASCII so this equals bytes)
of the separator match starting at this position, if any. -/
def matchSep : List Char → Option Nat
  | [] => none
  | c :: rest =>
    if (c = '.' || c = '!' || c = '?') &&
        (match rest with | [] => false | w :: _ => isWs w) then
      some (1 + (rest.takeWhile isWs).length)
    else if c = Char.ofNat 10 &&
        (match rest with | [] => false | w :: _ => w = Char.ofNat 10) then
      some (1 + (rest.takeWhile (fun x => x = Char.ofNat 10)).length)
    else none

/-- Regex::split scanning loop: `acc` holds the current fragment reversed.
When a separator of total length n ≥ 1 matches at `c :: rest`, the
remainder after the separator is rest.drop (n - 1).  The loop consumes at
least one character per step, so with fuel ≥ s.length the fuel-exhaustion
branch (which closes the final fragment) is never reached; fuel makes the
recursion structural so that it evaluates by kernel reduction. -/
def splitGo : Nat → List Char → List Char → List (List Char)
  | _, acc, [] => [acc.reverse]
  | 0, acc, s => [acc.reverse ++ s]
  | fuel + 1, acc, c :: rest =>
    match matchSep (c :: rest) with
    | some n => acc.reverse :: splitGo fuel [] (rest.drop (n - 1))
    | none => splitGo fuel (c :: acc) rest

/-- sentence_re.split(text). -/
def splitSentences (text : List Char) : List (List Char) :=
  splitGo text.length [] text

/-- str::trim (whitespace from both ends). -/
def trimChars (l : List Char) : List Char :=
  ((l.dropWhile isWs).reverse.dropWhile isWs).reverse

/-- sentence.ends_with([.,!,?]) check used before re-adding punctuation. -/
def endsWithPunct (l : List Char) : Bool :=
  match l.getLast? with
  | some c => c = '.' || c = '!' || c = '?'
  | none => false

/-- sentence_with_punct: the trimmed sentence, with a period appended when
it does not already end in terminal punctuation. -/
def withPunct (s : List Char) : List Char :=
  if endsWithPunct s then s else s ++ ['.']

/-- The trimmed, nonempty sentences of the text with punctuation re-added,
in order: exactly the strings the chunking loop appends to chunks. -/
def sentencesWithPunct (text : List Char) : List (List Char) :=
  (splitSentences text).filterMap (fun s =>
    let t := trimChars s
    if t = [] then none else some (withPunct t))

/-- Largest byte length among the processed sentences (0 when none). -/
def maxSwpLen (text : List Char) : Nat :=
  ((sentencesWithPunct text).map byteLen).foldr max 0

/-- The suffix of `l` starting at byte offset `i`
(Rust slice s[i..]): none when `i` is not a character boundary or is out
of range, which in Rust is a panic. -/
def sliceFromByte : List Char → Nat → Option (List Char)
  | l, 0 => some l
  | [], _ + 1 => none
  | c :: rest, i + 1 =>
    if charBytes c ≤ i + 1 then sliceFromByte rest (i + 1 - charBytes c)
    else none

/-- Loop state of chunk_text: emitted chunks, current chunk, overlap
buffer. -/
structure ChunkState where
  chunks : List (List Char)
  current : List Char
  buf : List Char
deriving DecidableEq, Repr

/-- One iteration of the sentence loop in chunk_text.  Returns none when
the overlap byte slice would panic. -/
def chunkStep (maxChars overlapChars : Nat) (st : ChunkState)
    (sentence : List Char) : Option ChunkState :=
  let s := trimChars sentence
  if s = [] then some st
  else
    let swp := withPunct s
    let testLen :=
      if st.current = [] then byteLen swp
      else byteLen st.current + 1 + byteLen swp
    if testLen > maxChars ∧ st.current ≠ [] then
      let seed? :=
        if byteLen st.buf > overlapChars then
          sliceFromByte st.buf (byteLen st.buf - overlapChars)
        else some st.buf
      match seed? with
      | none => none
      | some seed =>
        let cur1 := if seed = [] then [] else seed ++ [' ']
        let cur2 := if cur1 = [] then swp else cur1 ++ [' '] ++ swp
        some ⟨st.chunks ++ [st.current], cur2, cur2⟩
    else
      let cur2 := if st.current = [] then swp else st.current ++ [' '] ++ swp
      some ⟨st.chunks, cur2, cur2⟩

/-- chunk_text.  The result is none exactly when the Rust function
panics (overlap slice at a non-character-boundary byte index). -/
def chunk_text (text : List Char) (maxChars overlapChars : Nat) :
    Option (List (List Char)) :=
  if byteLen text ≤ maxChars then some [text]
  else
    match (splitSentences text).foldlM (chunkStep maxChars overlapChars)
        ⟨[], [], []⟩ with
    | none => none
    | some st =>
      let chunks :=
        if st.current ≠ [] then st.chunks ++ [st.current] else st.chunks
      some (if chunks = [] then [text] else chunks)

/-! ### Hybrid search (src-tauri/src/db/search.rs)

The SQLite stores are modelled as lists: the journals table is a list of
Journal rows (ids assumed unique, looked up with find?), and the two
vector pools are given by their query results (entry_results from
vectors::search_similar, chunk_results from
vectors::search_similar_chunks), which are inputs at this boundary.

A Rust HashMap is modelled by the association list built in insertion
order (updates in place, new keys appended).  HashMap::into_iter yields
the entries in an unspecified order that varies between map instances, so
every function consuming an iteration receives the iterated list as an
explicit parameter, constrained in the theorems to be a permutation of
the canonical association list. -/

/-- A journals-table row (fields the search path reads). -/
structure Journal where
  id : String
  content : String
  created_at : String
  is_archived : Bool
deriving DecidableEq, Repr

/-- vectors::ChunkSearchResult (fields the search path reads). -/
structure ChunkHit where
  journal_id : String
  distance : ℚ
deriving DecidableEq, Repr

/-- Value stored per id in the RRF score HashMap:
(combined score, fts rank, vector rank). -/
structure RrfVal where
  score : ℚ
  fts_rank : Option Nat
  vec_rank : Option Nat
deriving DecidableEq, Repr

/-- Result from hybrid search with combined score. -/
structure HybridSearchResult where
  journal : Journal
  score : ℚ
  fts_rank : Option Nat
  vec_rank : Option Nat
deriving DecidableEq, Repr

/-- Lookup in an association list (HashMap::get). -/
def assocLookup {β : Type} : List (String × β) → String → Option β
  | [], _ => none
  | (k, v) :: rest, id => if k = id then some v else assocLookup rest id

/-- HashMap entry(id).and_modify(f).or_insert(v): update in place, append
new keys (insertion order of the canonical association list). -/
def mapUpd {β : Type} (m : List (String × β)) (id : String)
    (f : Option β → β) : List (String × β) :=
  match m with
  | [] => [(id, f none)]
  | (k, v) :: rest =>
    if k = id then (k, f (some v)) :: rest else (k, v) :: mapUpd rest id f

/-- best_scores update: keep the smaller distance
(and_modify: if distance < d then replace; or_insert distance). -/
def updMin (m : List (String × ℚ)) (id : String) (d : ℚ) :
    List (String × ℚ) :=
  mapUpd m id (fun old =>
    match old with
    | some d0 => if d < d0 then d else d0
    | none => d)

/-- The best_scores HashMap of vector_search: per journal id, the best
(smallest) distance over entry-level results then chunk results. -/
def bestScoresAssoc (entry_results : List (String × ℚ))
    (chunk_results : List ChunkHit) : List (String × ℚ) :=
  let m1 := entry_results.foldl (fun m p => updMin m p.1 p.2) []
  chunk_results.foldl (fun m c => updMin m c.journal_id c.distance) m1

/-- Stable insertion into a distance-ascending list: the new element goes
before the first element it is ≤, so elements with equal distance keep
their original relative order, as Rust's stable sort_by does. -/
def insertAsc (x : String × ℚ) : List (String × ℚ) → List (String × ℚ)
  | [] => [x]
  | y :: t => if x.2 ≤ y.2 then x :: y :: t else y :: insertAsc x t

/-- Stable ascending sort by distance
(combined.sort_by(partial_cmp on the f64 distance)). -/
def sortAsc : List (String × ℚ) → List (String × ℚ)
  | [] => []
  | x :: t => insertAsc x (sortAsc t)

/-- SELECT ... FROM journals WHERE id = ? (ids assumed unique). -/
def lookupJournal (js : List Journal) (id : String) : Option Journal :=
  js.find? (fun j => j.id = id)

/-- The archived-filtering loop of vector_search: push ids whose journal
row exists and is not archived, log-and-skip orphaned ids, stop as soon
as `limit` results are collected. -/
def archivedFilterLoop (js : List Journal) (limit : Nat)
    (acc : List (String × ℚ)) : List (String × ℚ) → List (String × ℚ)
  | [] => acc
  | p :: rest =>
    let acc' :=
      match lookupJournal js p.1 with
      | some j => if j.is_archived then acc else acc ++ [p]
      | none => acc
    if limit ≤ acc'.length then acc' else archivedFilterLoop js limit acc' rest

/-- vector_search: aggregate both vector pools into best_scores, iterate
the map (hash order modelled by the reordering function `iterV`, a
permutation in the theorems), sort by distance ascending, then either
stream-filter archived/orphaned entries up to `limit` or just truncate. -/
def vector_search (js : List Journal) (entry_results : List (String × ℚ))
    (chunk_results : List ChunkHit)
    (iterV : List (String × ℚ) → List (String × ℚ))
    (limit : Nat) (include_archived : Bool) : List (String × ℚ) :=
  let combined := sortAsc (iterV (bestScoresAssoc entry_results chunk_results))
  if include_archived = false then archivedFilterLoop js limit [] combined
  else combined.take limit

/-- RRF constant for rank fusion (standard value). -/
def RRF_K : ℚ := 60

/-- 1 / (RRF_K + (rank + 1)) for a 0-based enumeration rank. -/
def rrfScoreAt (rank : Nat) : ℚ :=
  1 / (RRF_K + ((rank : ℚ) + 1))

/-- One FTS-channel iteration of reciprocal_rank_fusion: for the hit at
0-based enumeration rank p.1, add 1/(K + rank + 1) to the entry's score
(inserting (0.0, None, None) if absent) and record fts_rank = rank + 1. -/
def rrfStepFts (m : List (String × RrfVal)) (p : Nat × (String × ℚ)) :
    List (String × RrfVal) :=
  mapUpd m p.2.1 (fun old =>
    let e := old.getD ⟨0, none, none⟩
    ⟨e.score + rrfScoreAt p.1, some (p.1 + 1), e.vec_rank⟩)

/-- One vector-channel iteration of reciprocal_rank_fusion. -/
def rrfStepVec (m : List (String × RrfVal)) (p : Nat × (String × ℚ)) :
    List (String × RrfVal) :=
  mapUpd m p.2.1 (fun old =>
    let e := old.getD ⟨0, none, none⟩
    ⟨e.score + rrfScoreAt p.1, e.fts_rank, some (p.1 + 1)⟩)

/-- The scores HashMap of reciprocal_rank_fusion: FTS contributions are
added first, then vector contributions. -/
def rrfAssoc (fts_results vec_results : List (String × ℚ)) :
    List (String × RrfVal) :=
  vec_results.enum.foldl rrfStepVec (fts_results.enum.foldl rrfStepFts [])

/-- Stable insertion into a score-descending list (the new element goes
before the first element whose score is ≤ its own). -/
def insertDesc (x : String × RrfVal) :
    List (String × RrfVal) → List (String × RrfVal)
  | [] => [x]
  | y :: t => if y.2.score ≤ x.2.score then x :: y :: t else y :: insertDesc x t

/-- Stable descending sort by combined score
(results.sort_by(|a, b| b.score.partial_cmp(&a.score))). -/
def sortDesc : List (String × RrfVal) → List (String × RrfVal)
  | [] => []
  | x :: t => insertDesc x (sortDesc t)

/-- reciprocal_rank_fusion, from the scores map onward: sort by combined
score descending (stable) and truncate to `limit`.  `rrfOrder` is the
HashMap iteration order of the scores map. -/
def reciprocal_rank_fusion (rrfOrder : List (String × RrfVal))
    (limit : Nat) : List (String × RrfVal) :=
  (sortDesc rrfOrder).take limit

/-- journals::get: NotFound error when the id has no row. -/
def journals_get (js : List Journal) (id : String) : Except String Journal :=
  match lookupJournal js id with
  | some j => Except.ok j
  | none => Except.error ("Journal entry not found: " ++ id)

/-- The result-building loop of hybrid_search: fetch each journal row,
propagating the first NotFound error with `?`. -/
def fetchJournals (js : List Journal) :
    List (String × RrfVal) → Except String (List HybridSearchResult)
  | [] => Except.ok []
  | (id, v) :: rest =>
    match journals_get js id with
    | Except.error e => Except.error e
    | Except.ok j =>
      match fetchJournals js rest with
      | Except.error e => Except.error e
      | Except.ok rs => Except.ok (⟨j, v.score, v.fts_rank, v.vec_rank⟩ :: rs)

/-- hybrid_search: vector channel (if an embedding is available), rank
fusion, then journal fetch.  `fts_results` is the output of fts_search
(already limited to limit*2 by SQL); `iterV` and `iterR` model the two
HashMap iteration orders. -/
def hybrid_search (js : List Journal) (fts_results : List (String × ℚ))
    (entry_results : List (String × ℚ)) (chunk_results : List ChunkHit)
    (iterV : List (String × ℚ) → List (String × ℚ))
    (iterR : List (String × RrfVal) → List (String × RrfVal))
    (hasEmbedding : Bool) (limit : Nat) (include_archived : Bool) :
    Except String (List HybridSearchResult) :=
  let vec_results :=
    if hasEmbedding then
      vector_search js entry_results chunk_results iterV (limit * 2)
        include_archived
    else []
  let combined :=
    reciprocal_rank_fusion (iterR (rrfAssoc fts_results vec_results)) limit
  fetchJournals js combined

/-- All distances recorded for a journal id across the entry-level results
and the chunk results (the sources best_scores aggregates). -/
def distsFor (entry_results : List (String × ℚ))
    (chunk_results : List ChunkHit) (id : String) : List ℚ :=
  ((entry_results.filter (fun p => p.1 = id)).map Prod.snd) ++
  ((chunk_results.filter (fun c => c.journal_id = id)).map ChunkHit.distance)

/-- Minimum of a list of rationals. -/
def listMin : List ℚ → Option ℚ
  | [] => none
  | d :: ds =>
    match listMin ds with
    | none => some d
    | some m => some (min d m)

/-- Combine an optional current best with an optional new minimum. -/
def combineMin : Option ℚ → Option ℚ → Option ℚ
  | none, b => b
  | some a, none => some a
  | some a, some b => some (min a b)

/-- 1-based rank of an id in a channel list (position of its first
occurrence). -/
def rank1 (l : List (String × ℚ)) (id : String) : Option Nat :=
  match l.enum.find? (fun p => p.2.1 = id) with
  | some p => some (p.1 + 1)
  | none => none

/-- A channel's RRF contribution for an id: 1/(60+r) at 1-based rank r,
0 if absent. -/
def rrfContrib (l : List (String × ℚ)) (id : String) : ℚ :=
  match rank1 l id with
  | some r => 1 / (RRF_K + (r : ℚ))
  | none => 0

/-! ### Context budget fitter (src-tauri/src/llm/chat.rs) -/

/-- db::chat::ChatMessage (fields the fitter reads and copies). -/
structure DbChatMessage where
  role : String
  content : String
deriving DecidableEq, Repr

/-- Context budget limits (in characters). -/
def MAX_CONTEXT_CHARS : Nat := 24000

/-- Character budget reserved for the system prompt. -/
def SYSTEM_PROMPT_BUDGET : Nat := 2000

/-- Character budget ceiling for RAG context. -/
def RAG_BUDGET : Nat := 8000

/-- Character budget ceiling for chat history. -/
def HISTORY_BUDGET : Nat := 14000

/-- Cost the fitter charges for one history turn: content bytes plus a
fixed 20-character overhead for role/structure. -/
def histCost1 (m : DbChatMessage) : Nat :=
  strBytes m.content + 20

/-- Cost the fitter charges for one RAG result: content bytes capped at
500 (the truncated snippet) plus 50 characters of metadata overhead. -/
def ragCost1 (r : HybridSearchResult) : Nat :=
  min (strBytes r.journal.content) 500 + 50

/-- The greedy packing loop shared by both halves of fit_context_budget:
walk the items in order, keep a running character total, and break at the
first item that would push the total over the budget. -/
def packGreedy {α : Type} (cost : α → Nat) (budget : Nat) :
    List α → Nat → List α
  | [], _ => []
  | x :: rest, acc =>
    if budget < acc + cost x then []
    else x :: packGreedy cost budget rest (acc + cost x)

/-- remaining_budget = MAX_CONTEXT_CHARS.saturating_sub(SYSTEM_PROMPT_BUDGET). -/
def remainingBudget : Nat := MAX_CONTEXT_CHARS - SYSTEM_PROMPT_BUDGET

/-- history_budget = min(remaining_budget, HISTORY_BUDGET). -/
def historyBudget : Nat := min remainingBudget HISTORY_BUDGET

/-- fitted_history: pack history newest-first (iterating the reversed
history), then reverse the accepted turns back to chronological order. -/
def fittedHistory (chat_history : Option (List DbChatMessage)) :
    List DbChatMessage :=
  match chat_history with
  | some history => (packGreedy histCost1 historyBudget history.reverse 0).reverse
  | none => []

/-- history_chars accumulated by the history loop. -/
def historyChars (chat_history : Option (List DbChatMessage)) : Nat :=
  ((fittedHistory chat_history).map histCost1).sum

/-- rag_budget = min(remaining_budget - history_chars, RAG_BUDGET). -/
def ragBudget (chat_history : Option (List DbChatMessage)) : Nat :=
  min (remainingBudget - historyChars chat_history) RAG_BUDGET

/-- fitted_rag: pack fused results in ranked order into the remaining
budget. -/
def fittedRag (rag_context : Option (List HybridSearchResult))
    (chat_history : Option (List DbChatMessage)) : List HybridSearchResult :=
  match rag_context with
  | some context => packGreedy ragCost1 (ragBudget chat_history) context 0
  | none => []

/-- fit_context_budget. -/
def fit_context_budget (rag_context : Option (List HybridSearchResult))
    (chat_history : Option (List DbChatMessage)) :
    List HybridSearchResult × List DbChatMessage :=
  (fittedRag rag_context chat_history, fittedHistory chat_history)

/-! ## Theorems -/

/-! ### Greedy packing lemmas -/

theorem packGreedy_sum_le {α : Type} (cost : α → Nat) (B : Nat) :
    ∀ (l : List α) (acc : Nat), acc ≤ B →
      acc + ((packGreedy cost B l acc).map cost).sum ≤ B := by
  intro l
  induction l with
  | nil => intro acc h; simpa [packGreedy] using h
  | cons x rest ih =>
    intro acc h
    by_cases hb : B < acc + cost x
    · simpa [packGreedy, hb] using h
    · have h' : acc + cost x ≤ B := Nat.le_of_not_lt hb
      have := ih (acc + cost x) h'
      simp only [packGreedy, if_neg hb, List.map_cons, List.sum_cons]
      omega

theorem packGreedy_take {α : Type} (cost : α → Nat) (B : Nat) :
    ∀ (l : List α) (acc : Nat), ∃ n, n ≤ l.length ∧
      packGreedy cost B l acc = l.take n ∧
      (n = l.length ∨ B < acc + ((l.take (n + 1)).map cost).sum) := by
  intro l
  induction l with
  | nil =>
    intro acc
    exact ⟨0, by simp [packGreedy]⟩
  | cons x rest ih =>
    intro acc
    by_cases hb : B < acc + cost x
    · refine ⟨0, by simp, by simp [packGreedy, hb], Or.inr ?_⟩
      simpa using hb
    · obtain ⟨n, hn, heq, hst⟩ := ih (acc + cost x)
      refine ⟨n + 1, by simpa using hn, ?_, ?_⟩
      · simp [packGreedy, hb, heq]
      · rcases hst with h | h
        · exact Or.inl (by simp [h])
        · refine Or.inr ?_
          simp only [List.take_succ_cons, List.map_cons, List.sum_cons]
          omega

/-! ### C4: total packed characters never exceed the context budget -/

theorem historyChars_le (chat_history : Option (List DbChatMessage)) :
    historyChars chat_history ≤ historyBudget := by
  cases chat_history with
  | none => simp [historyChars, fittedHistory]
  | some history =>
    have h := packGreedy_sum_le histCost1 historyBudget history.reverse 0
      (Nat.zero_le _)
    simp only [Nat.zero_add] at h
    calc historyChars (some history)
        = ((packGreedy histCost1 historyBudget history.reverse 0).reverse.map
            histCost1).sum := rfl
      _ = ((packGreedy histCost1 historyBudget history.reverse 0).map
            histCost1).sum := by rw [List.map_reverse, List.sum_reverse]
      _ ≤ historyBudget := h

theorem ragChars_le (rag_context : Option (List HybridSearchResult))
    (chat_history : Option (List DbChatMessage)) :
    ((fittedRag rag_context chat_history).map ragCost1).sum ≤
      ragBudget chat_history := by
  cases rag_context with
  | none => simp [fittedRag]
  | some context =>
    have h := packGreedy_sum_le ragCost1 (ragBudget chat_history) context 0
      (Nat.zero_le _)
    simpa [fittedRag] using h

/-- C4: for every input pair of fused results and chat history, the sum
over fitted history turns of (content length + 20) plus the sum over
fitted RAG results of (content length capped at 500 + 50) never exceeds
MAX_CONTEXT_CHARS - SYSTEM_PROMPT_BUDGET (24000 - 2000 characters). -/
theorem fit_context_budget_total_le
    (rag_context : Option (List HybridSearchResult))
    (chat_history : Option (List DbChatMessage)) :
    (((fit_context_budget rag_context chat_history).2.map
        (fun m => strBytes m.content + 20)).sum +
     ((fit_context_budget rag_context chat_history).1.map
        (fun r => min (strBytes r.journal.content) 500 + 50)).sum) ≤
      MAX_CONTEXT_CHARS - SYSTEM_PROMPT_BUDGET := by
  have hh : historyChars chat_history ≤ remainingBudget :=
    le_trans (historyChars_le chat_history) (Nat.min_le_left _ _)
  have hr : ((fittedRag rag_context chat_history).map ragCost1).sum ≤
      remainingBudget - historyChars chat_history :=
    le_trans (ragChars_le rag_context chat_history) (Nat.min_le_left _ _)
  have e1 : ((fit_context_budget rag_context chat_history).2.map
      (fun m => strBytes m.content + 20)).sum = historyChars chat_history := rfl
  have e2 : ((fit_context_budget rag_context chat_history).1.map
      (fun r => min (strBytes r.journal.content) 500 + 50)).sum =
      ((fittedRag rag_context chat_history).map ragCost1).sum := rfl
  rw [e1, e2]
  have : remainingBudget = MAX_CONTEXT_CHARS - SYSTEM_PROMPT_BUDGET := rfl
  omega

/-! ### C5 / C10: shape of the fitted history and RAG lists -/

theorem fittedHistory_drop (history : List DbChatMessage) :
    ∃ k, k ≤ history.length ∧
      fittedHistory (some history) = history.drop k ∧
      (k = 0 ∨ historyBudget < ((history.drop (k - 1)).map histCost1).sum) := by
  obtain ⟨n, hn, heq, hstop⟩ :=
    packGreedy_take histCost1 historyBudget history.reverse 0
  simp only [List.length_reverse] at hn
  refine ⟨history.length - n, Nat.sub_le _ _, ?_, ?_⟩
  · show (packGreedy histCost1 historyBudget history.reverse 0).reverse =
      history.drop (history.length - n)
    rw [heq, List.take_reverse, List.reverse_reverse]
  · rcases hstop with h | h
    · simp only [List.length_reverse] at h
      left; omega
    · right
      have hlt : n < history.length := by
        rcases Nat.lt_or_ge n history.length with h' | h'
        · exact h'
        · exfalso
          have e1 : history.reverse.take (n + 1) = history.reverse :=
            List.take_of_length_le (by simp; omega)
          have e2 : history.reverse.take n = history.reverse :=
            List.take_of_length_le (by simp; omega)
          rw [e1] at h
          have hb := packGreedy_sum_le histCost1 historyBudget history.reverse 0
            (Nat.zero_le _)
          rw [heq, e2] at hb
          simp only [Nat.zero_add] at h hb
          omega
      have hk : history.length - n - 1 = history.length - (n + 1) := by omega
      rw [hk]
      have hrev : history.reverse.take (n + 1) =
          (history.drop (history.length - (n + 1))).reverse :=
        List.take_reverse
      rw [hrev] at h
      rw [List.map_reverse, List.sum_reverse] at h
      simpa using h

theorem fittedRag_take (context : List HybridSearchResult)
    (chat_history : Option (List DbChatMessage)) :
    ∃ n, n ≤ context.length ∧
      fittedRag (some context) chat_history = context.take n ∧
      (n = context.length ∨
        ragBudget chat_history < ((context.take (n + 1)).map ragCost1).sum) := by
  obtain ⟨n, hn, heq, hstop⟩ :=
    packGreedy_take ragCost1 (ragBudget chat_history) context 0
  refine ⟨n, hn, heq, ?_⟩
  rcases hstop with h | h
  · exact Or.inl h
  · exact Or.inr (by simpa using h)

/-- C5: history packing is newest-first: the fitter returns a contiguous
suffix of the chronological history (the k oldest turns are dropped), and
it stops exactly when keeping one more (older) turn would push the packed
character total over the history budget; the suffix is returned in
chronological order. -/
theorem history_packing_newest_first
    (rag_context : Option (List HybridSearchResult))
    (history : List DbChatMessage) :
    ∃ k, k ≤ history.length ∧
      (fit_context_budget rag_context (some history)).2 = history.drop k ∧
      (k = 0 ∨
        historyBudget < ((history.drop (k - 1)).map histCost1).sum) := by
  obtain ⟨k, hk, heq, hstop⟩ := fittedHistory_drop history
  exact ⟨k, hk, heq, hstop⟩

/-- C10: the budget fitter never reorders or substitutes content: the
returned RAG list is a prefix of the input fused results (stopping at the
first result that does not fit the RAG budget, not at a later smaller
one), and the returned history is a contiguous suffix of the input
history (stopping at the first older turn that does not fit). -/
theorem fitter_prefix_suffix_greedy (context : List HybridSearchResult)
    (history : List DbChatMessage) :
    (∃ n, n ≤ context.length ∧
      (fit_context_budget (some context) (some history)).1 = context.take n ∧
      (n = context.length ∨
        ragBudget (some history) <
          ((context.take (n + 1)).map ragCost1).sum)) ∧
    (∃ k, k ≤ history.length ∧
      (fit_context_budget (some context) (some history)).2 = history.drop k ∧
      (k = 0 ∨
        historyBudget < ((history.drop (k - 1)).map histCost1).sum)) := by
  constructor
  · obtain ⟨n, hn, heq, hstop⟩ := fittedRag_take context (some history)
    exact ⟨n, hn, heq, hstop⟩
  · obtain ⟨k, hk, heq, hstop⟩ := fittedHistory_drop history
    exact ⟨k, hk, heq, hstop⟩

/-! ### C1: safety classifier precedence and concrete verdicts -/

/-- C1: the safety classifier checks crisis patterns first, distress
patterns second, emotion escalation third, and defaults to Safe; on the
specified inputs it yields Crisis (unsafe, with an intervention) for a
crisis phrase, Distress (safe) for a distress phrase, Safe with no
intervention for a benign message, Distress for a benign message with a
risk emotion scored above 0.5, and Safe when the risk emotion score is
at most 0.5. -/
theorem safety_classifier_cases :
    (check_with_emotions "I want to kill myself" none).safe = false ∧
    (check_with_emotions "I want to kill myself" none).level = .Crisis ∧
    (check_with_emotions "I want to kill myself" none).intervention.isSome = true ∧
    (check_with_emotions "I feel hopeless" none).safe = true ∧
    (check_with_emotions "I feel hopeless" none).level = .Distress ∧
    (check_with_emotions "great day" none).safe = true ∧
    (check_with_emotions "great day" none).level = .Safe ∧
    (check_with_emotions "great day" none).intervention = none ∧
    (check_with_emotions "today was hard" (some [⟨"grief", 7/10⟩])).safe = true ∧
    (check_with_emotions "today was hard" (some [⟨"grief", 7/10⟩])).level = .Distress ∧
    (check_with_emotions "today was hard" (some [⟨"sadness", 3/10⟩])).safe = true ∧
    (check_with_emotions "today was hard" (some [⟨"sadness", 3/10⟩])).level = .Safe := by
  have hc : anyPhraseMatch CRISIS_KEYWORDS (lowerStr "today was hard") = false := by
    decide
  have hd : anyPhraseMatch DISTRESS_KEYWORDS (lowerStr "today was hard") = false := by
    decide
  have hg : isRiskEmotion (lowerStr "grief") = true := by decide
  have hs : isRiskEmotion (lowerStr "sadness") = true := by decide
  have hyes : ((0.5 : ℚ) < 7/10) := by norm_num
  have hno : ¬ ((0.5 : ℚ) < 3/10) := by norm_num
  refine ⟨rfl, rfl, rfl, rfl, rfl, rfl, rfl, rfl, ?_, ?_, ?_, ?_⟩ <;>
    simp [check_with_emotions, hc, hd, hg, hs, hyes, hno, GT.gt]

/-! ### C9: chunk_text can panic on multi-byte input -/

/-- C9 (refuting totality): on the multi-byte input below, with
max_chars = 10 and overlap_chars = 2, the overlap reseeding slices the
overlap buffer at byte index 9, which falls inside the two-byte character
at bytes 8..9, so the Rust byte slice panics (modelled as none). -/
theorem chunk_text_panics_on_multibyte :
    chunk_text "ααααα. bbbbbbbb.".toList 10 2 = none := by decide

/-! ### C8: chunk length bound -/

/-- C8 (refuting the stated bound): a text longer than max_chars whose
chunking produces a chunk of 15 bytes, exceeding
max_chars + overlap_chars = 14, even though no sentence of the text is
longer than that bound (the oversized chunk is overlap seed + two joining
spaces + a sentence, not a single unsplit long sentence). -/
theorem chunk_len_counterexample :
    10 < byteLen "aaaabbbb. cccccddd.".toList ∧
    ∃ cs, chunk_text "aaaabbbb. cccccddd.".toList 10 4 = some cs ∧
      ∃ c ∈ cs, 10 + 4 < byteLen c ∧
        c ∉ sentencesWithPunct "aaaabbbb. cccccddd.".toList := by
  refine ⟨by decide, ["aaaabbbb.".toList, "bbb.  cccccddd.".toList],
    by decide, by decide⟩

theorem sliceFromByte_byteLen :
    ∀ (l : List Char) (i : Nat) (r : List Char),
      sliceFromByte l i = some r → byteLen r = byteLen l - i := by
  intro l
  induction l with
  | nil =>
    intro i r h
    cases i with
    | zero => simp [sliceFromByte] at h; simp [← h]
    | succ j => simp [sliceFromByte] at h
  | cons c rest ih =>
    intro i r h
    cases i with
    | zero => simp [sliceFromByte] at h; simp [← h]
    | succ j =>
      simp only [sliceFromByte] at h
      by_cases hc : charBytes c ≤ j + 1
      · rw [if_pos hc] at h
        have := ih (j + 1 - charBytes c) r h
        have hb : byteLen (c :: rest) = charBytes c + byteLen rest := by
          simp [byteLen]
        omega
      · rw [if_neg hc] at h
        exact absurd h (by simp)

/-- The byte length of the overlap seed is at most overlap_chars. -/
theorem seed_byteLen_le (buf : List Char) (ov : Nat) (seed : List Char)
    (h : (if byteLen buf > ov then
            sliceFromByte buf (byteLen buf - ov)
          else some buf) = some seed) :
    byteLen seed ≤ ov := by
  by_cases hb : byteLen buf > ov
  · rw [if_pos hb] at h
    have := sliceFromByte_byteLen buf (byteLen buf - ov) seed h
    omega
  · rw [if_neg hb] at h
    cases h
    omega

theorem byteLen_append (a b : List Char) :
    byteLen (a ++ b) = byteLen a + byteLen b := by
  simp [byteLen]

/-- One chunking step preserves the invariant: all emitted chunks and the
current chunk stay within max(max_chars, overlap_chars + 2 + S), where S
bounds every processed sentence's byte length. -/
theorem chunkStep_inv (mx ov S : Nat) (st : ChunkState) (sentence : List Char)
    (st' : ChunkState)
    (hS : trimChars sentence = [] ∨
      byteLen (withPunct (trimChars sentence)) ≤ S)
    (hchunks : ∀ c ∈ st.chunks, byteLen c ≤ max mx (ov + 2 + S))
    (hcur : byteLen st.current ≤ max mx (ov + 2 + S))
    (hstep : chunkStep mx ov st sentence = some st') :
    (∀ c ∈ st'.chunks, byteLen c ≤ max mx (ov + 2 + S)) ∧
      byteLen st'.current ≤ max mx (ov + 2 + S) := by
  by_cases hempty : trimChars sentence = []
  · simp only [chunkStep, if_pos hempty] at hstep
    cases hstep
    exact ⟨hchunks, hcur⟩
  · have hSb : byteLen (withPunct (trimChars sentence)) ≤ S := by
      rcases hS with h | h
      · exact absurd h hempty
      · exact h
    simp only [chunkStep, if_neg hempty] at hstep
    set swp := withPunct (trimChars sentence) with hswp
    set testLen :=
      if st.current = [] then byteLen swp
      else byteLen st.current + 1 + byteLen swp with htest
    by_cases hemit : testLen > mx ∧ st.current ≠ []
    · rw [if_pos hemit] at hstep
      rcases hseed : (if byteLen st.buf > ov then
          sliceFromByte st.buf (byteLen st.buf - ov)
        else some st.buf) with _ | seed
      · rw [hseed] at hstep; exact absurd hstep (by simp)
      · rw [hseed] at hstep
        have hseedlen : byteLen seed ≤ ov := seed_byteLen_le st.buf ov seed hseed
        simp only [Option.some.injEq] at hstep
        subst hstep
        constructor
        · intro c hc
          simp only [List.mem_append, List.mem_singleton] at hc
          rcases hc with hc | hc
          · exact hchunks c hc
          · subst hc; exact hcur
        · dsimp only
          have hub := le_max_right mx (ov + 2 + S)
          by_cases hse : seed = []
          · have e1 : (if seed = [] then ([] : List Char) else seed ++ [' ']) = [] :=
              if_pos hse
            rw [e1]
            have e2 : (if ([] : List Char) = [] then swp
                else [] ++ [' '] ++ swp) = swp := if_pos rfl
            rw [e2]
            omega
          · have hne : seed ++ [' '] ≠ [] := by simp
            simp only [if_neg hse, if_neg hne]
            have hb : byteLen ((seed ++ [' ']) ++ [' '] ++ swp) =
                byteLen seed + 1 + 1 + byteLen swp := by
              have h1 : byteLen [' '] = 1 := rfl
              rw [byteLen_append, byteLen_append, byteLen_append, h1]
            rw [hb]
            omega
    · rw [if_neg hemit] at hstep
      simp only [Option.some.injEq] at hstep
      subst hstep
      refine ⟨hchunks, ?_⟩
      dsimp only
      by_cases hce : st.current = []
      · simp only [if_pos hce]
        exact le_trans hSb (le_trans (by omega) (le_max_right mx _))
      · simp only [if_neg hce]
        have hb : byteLen (st.current ++ [' '] ++ swp) =
            byteLen st.current + 1 + byteLen swp := by
          have h1 : byteLen [' '] = 1 := rfl
          rw [byteLen_append, byteLen_append, h1]
        rw [hb]
        have hnot : ¬ (testLen > mx) := by
          by_contra hgt
          exact hemit ⟨hgt, hce⟩
        rw [htest, if_neg hce] at hnot
        have := le_max_left mx (ov + 2 + S)
        omega

/-- The fold over all sentences preserves the invariant. -/
theorem chunkFold_inv (mx ov S : Nat) :
    ∀ (sentences : List (List Char)) (st st' : ChunkState),
      (∀ s ∈ sentences, trimChars s = [] ∨
        byteLen (withPunct (trimChars s)) ≤ S) →
      (∀ c ∈ st.chunks, byteLen c ≤ max mx (ov + 2 + S)) →
      byteLen st.current ≤ max mx (ov + 2 + S) →
      sentences.foldlM (chunkStep mx ov) st = some st' →
      (∀ c ∈ st'.chunks, byteLen c ≤ max mx (ov + 2 + S)) ∧
        byteLen st'.current ≤ max mx (ov + 2 + S) := by
  intro sentences
  induction sentences with
  | nil =>
    intro st st' _ hchunks hcur hfold
    simp only [List.foldlM_nil, Option.pure_def, Option.some.injEq] at hfold
    subst hfold
    exact ⟨hchunks, hcur⟩
  | cons s rest ih =>
    intro st st' hS hchunks hcur hfold
    rw [List.foldlM_cons] at hfold
    rcases hstep : chunkStep mx ov st s with _ | st1
    · rw [hstep] at hfold
      exact absurd hfold (by simp)
    · rw [hstep] at hfold
      simp only [Option.bind_eq_bind, Option.some_bind] at hfold
      obtain ⟨h1, h2⟩ := chunkStep_inv mx ov S st s st1
        (hS s (List.mem_cons_self s rest)) hchunks hcur hstep
      exact ih st1 st' (fun x hx => hS x (List.mem_cons_of_mem s hx)) h1 h2 hfold

theorem le_foldr_max (l : List (List Char)) (c : List Char) (h : c ∈ l) :
    byteLen c ≤ (l.map byteLen).foldr max 0 := by
  induction l with
  | nil => cases h
  | cons a t ih =>
    simp only [List.map_cons, List.foldr_cons]
    rcases List.mem_cons.mp h with h' | h'
    · subst h'
      exact le_max_left _ _
    · exact le_trans (ih h') (le_max_right _ _)

theorem le_maxSwpLen (text : List Char) (c : List Char)
    (h : c ∈ sentencesWithPunct text) : byteLen c ≤ maxSwpLen text :=
  le_foldr_max (sentencesWithPunct text) c h

/-- C8 (amended): every chunk produced by chunk_text (when it does not
panic) has byte length at most max(max_chars, overlap_chars + 2 + L),
where L is the byte length of the longest processed sentence — i.e. at
most max_chars + overlap_chars + 2 when no sentence exceeds max_chars —
except in the degenerate fallback where the whole text is returned as the
single chunk. -/
theorem chunk_length_bound (text : List Char) (mx ov : Nat)
    (cs : List (List Char)) (h : chunk_text text mx ov = some cs) :
    (∀ c ∈ cs, byteLen c ≤ max mx (ov + 2 + maxSwpLen text)) ∨
      cs = [text] := by
  unfold chunk_text at h
  by_cases hshort : byteLen text ≤ mx
  · rw [if_pos hshort] at h
    simp only [Option.some.injEq] at h
    exact Or.inr h.symm
  · rw [if_neg hshort] at h
    rcases hfold : (splitSentences text).foldlM (chunkStep mx ov)
        ⟨[], [], []⟩ with _ | st
    · rw [hfold] at h; exact absurd h (by simp)
    · rw [hfold] at h
      have hS : ∀ s ∈ splitSentences text, trimChars s = [] ∨
          byteLen (withPunct (trimChars s)) ≤ maxSwpLen text := by
        intro s hs
        by_cases he : trimChars s = []
        · exact Or.inl he
        · refine Or.inr (le_maxSwpLen text _ ?_)
          unfold sentencesWithPunct
          exact List.mem_filterMap.mpr ⟨s, hs, by simp [he]⟩
      obtain ⟨h1, h2⟩ := chunkFold_inv mx ov (maxSwpLen text)
        (splitSentences text) ⟨[], [], []⟩ st hS (by simp) (by simp [byteLen])
        hfold
      simp only [Option.some.injEq] at h
      by_cases hcur : st.current ≠ []
      · rw [if_pos hcur] at h
        have hne : st.chunks ++ [st.current] ≠ [] := by simp
        rw [if_neg hne] at h
        subst h
        refine Or.inl ?_
        intro c hc
        rcases List.mem_append.mp hc with hc | hc
        · exact h1 c hc
        · rw [List.mem_singleton] at hc
          subst hc
          exact h2
      · rw [if_neg hcur] at h
        by_cases hch : st.chunks = []
        · rw [if_pos hch] at h
          exact Or.inr h.symm
        · rw [if_neg hch] at h
          subst h
          exact Or.inl h1

/-- Witness for the amended chunk length bound at a concrete input. -/
theorem chunk_length_bound_witness :
    chunk_text "aaaabbbb. cccccddd.".toList 10 4 =
      some ["aaaabbbb.".toList, "bbb.  cccccddd.".toList] ∧
    ((∀ c ∈ ["aaaabbbb.".toList, "bbb.  cccccddd.".toList],
        byteLen c ≤ max 10 (4 + 2 + maxSwpLen "aaaabbbb. cccccddd.".toList)) ∨
      ["aaaabbbb.".toList, "bbb.  cccccddd.".toList] =
        ["aaaabbbb. cccccddd.".toList]) :=
  ⟨by decide, chunk_length_bound "aaaabbbb. cccccddd.".toList 10 4
    ["aaaabbbb.".toList, "bbb.  cccccddd.".toList] (by decide)⟩

/-! ### Sorting lemmas -/

theorem insertAsc_perm (x : String × ℚ) (l : List (String × ℚ)) :
    (insertAsc x l).Perm (x :: l) := by
  induction l with
  | nil => exact List.Perm.refl _
  | cons y t ih =>
    by_cases h : x.2 ≤ y.2
    · simp only [insertAsc, if_pos h]
      exact List.Perm.refl _
    · simp only [insertAsc, if_neg h]
      exact List.Perm.trans (List.Perm.cons y ih) (List.Perm.swap x y t)

theorem sortAsc_perm (l : List (String × ℚ)) : (sortAsc l).Perm l := by
  induction l with
  | nil => exact List.Perm.refl _
  | cons x t ih =>
    exact List.Perm.trans (insertAsc_perm x (sortAsc t)) (List.Perm.cons x ih)

theorem insertAsc_sorted (x : String × ℚ) (l : List (String × ℚ))
    (h : l.Pairwise (fun a b => a.2 ≤ b.2)) :
    (insertAsc x l).Pairwise (fun a b => a.2 ≤ b.2) := by
  induction l with
  | nil => simp [insertAsc]
  | cons y t ih =>
    rcases List.pairwise_cons.mp h with ⟨hy, ht⟩
    by_cases hc : x.2 ≤ y.2
    · simp only [insertAsc, if_pos hc]
      refine List.Pairwise.cons ?_ h
      intro b hb
      rcases List.mem_cons.mp hb with hb | hb
      · subst hb; exact hc
      · exact le_trans hc (hy b hb)
    · simp only [insertAsc, if_neg hc]
      refine List.Pairwise.cons ?_ (ih ht)
      intro b hb
      have hb' : b ∈ x :: t := (insertAsc_perm x t).mem_iff.mp hb
      rcases List.mem_cons.mp hb' with hb' | hb'
      · subst hb'; exact le_of_lt (lt_of_not_le hc)
      · exact hy b hb'

theorem sortAsc_sorted (l : List (String × ℚ)) :
    (sortAsc l).Pairwise (fun a b => a.2 ≤ b.2) := by
  induction l with
  | nil => simp [sortAsc]
  | cons x t ih => exact insertAsc_sorted x (sortAsc t) ih

theorem insertDesc_perm (x : String × RrfVal) (l : List (String × RrfVal)) :
    (insertDesc x l).Perm (x :: l) := by
  induction l with
  | nil => exact List.Perm.refl _
  | cons y t ih =>
    by_cases h : y.2.score ≤ x.2.score
    · simp only [insertDesc, if_pos h]
      exact List.Perm.refl _
    · simp only [insertDesc, if_neg h]
      exact List.Perm.trans (List.Perm.cons y ih) (List.Perm.swap x y t)

theorem sortDesc_perm (l : List (String × RrfVal)) : (sortDesc l).Perm l := by
  induction l with
  | nil => exact List.Perm.refl _
  | cons x t ih =>
    exact List.Perm.trans (insertDesc_perm x (sortDesc t)) (List.Perm.cons x ih)

theorem insertDesc_sorted (x : String × RrfVal) (l : List (String × RrfVal))
    (h : l.Pairwise (fun a b => b.2.score ≤ a.2.score)) :
    (insertDesc x l).Pairwise (fun a b => b.2.score ≤ a.2.score) := by
  induction l with
  | nil => simp [insertDesc]
  | cons y t ih =>
    rcases List.pairwise_cons.mp h with ⟨hy, ht⟩
    by_cases hc : y.2.score ≤ x.2.score
    · simp only [insertDesc, if_pos hc]
      refine List.Pairwise.cons ?_ h
      intro b hb
      rcases List.mem_cons.mp hb with hb | hb
      · subst hb; exact hc
      · exact le_trans (hy b hb) hc
    · simp only [insertDesc, if_neg hc]
      refine List.Pairwise.cons ?_ (ih ht)
      intro b hb
      have hb' : b ∈ x :: t := (insertDesc_perm x t).mem_iff.mp hb
      rcases List.mem_cons.mp hb' with hb' | hb'
      · subst hb'; exact le_of_lt (lt_of_not_le hc)
      · exact hy b hb'

theorem sortDesc_sorted (l : List (String × RrfVal)) :
    (sortDesc l).Pairwise (fun a b => b.2.score ≤ a.2.score) := by
  induction l with
  | nil => simp [sortDesc]
  | cons x t ih => exact insertDesc_sorted x (sortDesc t) ih

/-! ### Association map lemmas -/

theorem assocLookup_mapUpd {β : Type} (m : List (String × β)) (id x : String)
    (f : Option β → β) :
    assocLookup (mapUpd m id f) x =
      if x = id then some (f (assocLookup m id)) else assocLookup m x := by
  induction m with
  | nil =>
    by_cases h : x = id
    · subst h
      simp [mapUpd, assocLookup]
    · have h' : ¬ id = x := fun e => h e.symm
      simp [mapUpd, assocLookup, h, h']
  | cons p rest ih =>
    obtain ⟨k, v⟩ := p
    by_cases hk : k = id
    · subst hk
      by_cases hx : k = x
      · subst hx
        simp [mapUpd, assocLookup]
      · have hx' : ¬ x = k := fun e => hx e.symm
        simp [mapUpd, assocLookup, hx, hx']
    · by_cases hx : k = x
      · subst hx
        have hxid : ¬ k = id := hk
        simp [mapUpd, assocLookup, hk, hxid]
      · have hx' : ¬ x = k := fun e => hx e.symm
        simp only [mapUpd, if_neg hk, assocLookup, if_neg hx]
        rw [ih]

theorem mapUpd_keys {β : Type} (m : List (String × β)) (id : String)
    (f : Option β → β) (k : String)
    (h : k ∈ (mapUpd m id f).map Prod.fst) :
    k = id ∨ k ∈ m.map Prod.fst := by
  induction m with
  | nil =>
    have e : mapUpd ([] : List (String × β)) id f = [(id, f none)] := rfl
    rw [e] at h
    simp only [List.map_cons, List.map_nil, List.mem_singleton] at h
    exact Or.inl h
  | cons p rest ih =>
    obtain ⟨k0, v0⟩ := p
    by_cases hk : k0 = id
    · subst hk
      have e : mapUpd ((k0, v0) :: rest) k0 f = (k0, f (some v0)) :: rest := by
        simp [mapUpd]
      rw [e] at h
      simp only [List.map_cons, List.mem_cons] at h
      rcases h with h | h
      · exact Or.inl h
      · exact Or.inr (List.mem_cons.mpr (Or.inr h))
    · have e : mapUpd ((k0, v0) :: rest) id f = (k0, v0) :: mapUpd rest id f := by
        simp [mapUpd, hk]
      rw [e] at h
      simp only [List.map_cons, List.mem_cons] at h
      rcases h with h | h
      · exact Or.inr (List.mem_cons.mpr (Or.inl h))
      · rcases ih h with h' | h'
        · exact Or.inl h'
        · exact Or.inr (List.mem_cons.mpr (Or.inr h'))

theorem mapUpd_keys_nodup {β : Type} (m : List (String × β)) (id : String)
    (f : Option β → β) (h : (m.map Prod.fst).Nodup) :
    ((mapUpd m id f).map Prod.fst).Nodup := by
  induction m with
  | nil => simp [mapUpd]
  | cons p rest ih =>
    obtain ⟨k0, v0⟩ := p
    simp only [List.map_cons, List.nodup_cons] at h
    obtain ⟨hk0, hrest⟩ := h
    by_cases hk : k0 = id
    · subst hk
      have e : mapUpd ((k0, v0) :: rest) k0 f = (k0, f (some v0)) :: rest := by
        simp [mapUpd]
      rw [e]
      simp only [List.map_cons, List.nodup_cons]
      exact ⟨hk0, hrest⟩
    · have e : mapUpd ((k0, v0) :: rest) id f = (k0, v0) :: mapUpd rest id f := by
        simp [mapUpd, hk]
      rw [e]
      simp only [List.map_cons, List.nodup_cons]
      refine ⟨?_, ih hrest⟩
      intro hmem
      rcases mapUpd_keys rest id f k0 hmem with h' | h'
      · exact hk h'
      · exact hk0 h'

theorem assocLookup_of_mem {β : Type} (m : List (String × β))
    (hnd : (m.map Prod.fst).Nodup) (p : String × β) (hp : p ∈ m) :
    assocLookup m p.1 = some p.2 := by
  induction m with
  | nil => cases hp
  | cons q rest ih =>
    obtain ⟨k0, v0⟩ := q
    simp only [List.map_cons, List.nodup_cons] at hnd
    obtain ⟨hq, hrest⟩ := hnd
    rcases List.mem_cons.mp hp with h | h
    · subst h
      simp [assocLookup]
    · have hne : k0 ≠ p.1 := by
        intro he
        exact hq (he ▸ List.mem_map_of_mem Prod.fst h)
      simp only [assocLookup, if_neg hne]
      exact ih hrest h

/-! ### best_scores aggregation lemmas -/

theorem if_lt_eq_min (d d0 : ℚ) : (if d < d0 then d else d0) = min d0 d := by
  rcases le_or_lt d0 d with h | h
  · rw [if_neg (not_lt.mpr h), min_eq_left h]
  · rw [if_pos h, min_eq_right (le_of_lt h)]

theorem combineMin_none_right (a : Option ℚ) : combineMin a none = a := by
  cases a <;> rfl

theorem combineMin_assoc (a b c : Option ℚ) :
    combineMin (combineMin a b) c = combineMin a (combineMin b c) := by
  cases a <;> cases b <;> cases c <;> simp [combineMin, min_assoc]

theorem listMin_cons (d : ℚ) (ds : List ℚ) :
    listMin (d :: ds) = combineMin (some d) (listMin ds) := by
  cases h : listMin ds <;> simp [listMin, h, combineMin]

theorem listMin_append (a b : List ℚ) :
    listMin (a ++ b) = combineMin (listMin a) (listMin b) := by
  induction a with
  | nil => simp [listMin, combineMin]
  | cons d t ih =>
    rw [List.cons_append, listMin_cons, ih, listMin_cons, combineMin_assoc]

theorem assocLookup_updMin (m : List (String × ℚ)) (k : String) (d : ℚ)
    (x : String) :
    assocLookup (updMin m k d) x =
      if x = k then combineMin (assocLookup m k) (some d)
      else assocLookup m x := by
  rw [updMin, assocLookup_mapUpd]
  by_cases h : x = k
  · rw [if_pos h, if_pos h]
    cases hm : assocLookup m k with
    | none => simp [combineMin]
    | some d0 => simp [combineMin, if_lt_eq_min]
  · rw [if_neg h, if_neg h]

theorem foldl_updMin_lookup :
    ∀ (l : List (String × ℚ)) (m0 : List (String × ℚ)) (id : String),
      assocLookup (l.foldl (fun m p => updMin m p.1 p.2) m0) id =
        combineMin (assocLookup m0 id)
          (listMin ((l.filter (fun p => p.1 = id)).map Prod.snd)) := by
  intro l
  induction l with
  | nil =>
    intro m0 id
    simp [listMin, combineMin_none_right]
  | cons p t ih =>
    intro m0 id
    obtain ⟨k, d⟩ := p
    rw [List.foldl_cons]
    rw [ih (updMin m0 k d) id]
    by_cases h : k = id
    · subst h
      rw [assocLookup_updMin, if_pos rfl]
      have hf : List.filter (fun p => decide (p.1 = k)) ((k, d) :: t) =
          (k, d) :: List.filter (fun p => decide (p.1 = k)) t := by
        simp [List.filter_cons]
      rw [hf, List.map_cons, listMin_cons, combineMin_assoc]
    · have h' : ¬ ((k, d).1 = id) := h
      rw [assocLookup_updMin, if_neg (fun e => h e.symm)]
      have hf : List.filter (fun p => decide (p.1 = id)) ((k, d) :: t) =
          List.filter (fun p => decide (p.1 = id)) t := by
        simp [List.filter_cons, h]
      rw [hf]

/-- The best_scores map holds, for every journal id it contains, exactly
the minimum distance observed for that id across the entry-level results
and the chunk results. -/
theorem bestScores_lookup (e : List (String × ℚ)) (c : List ChunkHit)
    (id : String) :
    assocLookup (bestScoresAssoc e c) id = listMin (distsFor e c id) := by
  unfold bestScoresAssoc distsFor
  have hc : c.foldl (fun m ch => updMin m ch.journal_id ch.distance)
        (e.foldl (fun m p => updMin m p.1 p.2) []) =
      (c.map (fun ch => (ch.journal_id, ch.distance))).foldl
        (fun m p => updMin m p.1 p.2)
        (e.foldl (fun m p => updMin m p.1 p.2) []) := by
    rw [List.foldl_map]
  rw [hc, foldl_updMin_lookup, foldl_updMin_lookup]
  have h0 : assocLookup ([] : List (String × ℚ)) id = none := rfl
  rw [h0, listMin_append]
  have hfm : List.filter (fun p => decide (p.1 = id))
        (c.map (fun ch => (ch.journal_id, ch.distance))) =
      (c.filter (fun ch => decide (ch.journal_id = id))).map
        (fun ch => (ch.journal_id, ch.distance)) := by
    rw [List.filter_map]
    rfl
  rw [hfm, List.map_map]
  have hcomp : (Prod.snd ∘ fun ch : ChunkHit => (ch.journal_id, ch.distance)) =
      ChunkHit.distance := rfl
  rw [hcomp]
  cases listMin ((List.filter (fun p => decide (p.1 = id)) e).map Prod.snd) <;>
    simp [combineMin]

theorem foldl_updMin_keys_nodup :
    ∀ (l : List (String × ℚ)) (m0 : List (String × ℚ)),
      (m0.map Prod.fst).Nodup →
      ((l.foldl (fun m p => updMin m p.1 p.2) m0).map Prod.fst).Nodup := by
  intro l
  induction l with
  | nil => intro m0 h; exact h
  | cons p t ih =>
    intro m0 h
    rw [List.foldl_cons]
    exact ih (updMin m0 p.1 p.2) (mapUpd_keys_nodup m0 p.1 _ h)

theorem bestScores_keys_nodup (e : List (String × ℚ)) (c : List ChunkHit) :
    ((bestScoresAssoc e c).map Prod.fst).Nodup := by
  unfold bestScoresAssoc
  have hc : c.foldl (fun m ch => updMin m ch.journal_id ch.distance)
        (e.foldl (fun m p => updMin m p.1 p.2) []) =
      (c.map (fun ch => (ch.journal_id, ch.distance))).foldl
        (fun m p => updMin m p.1 p.2)
        (e.foldl (fun m p => updMin m p.1 p.2) []) := by
    rw [List.foldl_map]
  rw [hc]
  exact foldl_updMin_keys_nodup _ _ (foldl_updMin_keys_nodup e [] (by simp))

/-! ### Archived-filter loop lemmas -/

theorem archivedFilterLoop_shape (js : List Journal) (limit : Nat) :
    ∀ (l acc : List (String × ℚ)), ∃ s,
      archivedFilterLoop js limit acc l = acc ++ s ∧ s.Sublist l := by
  intro l
  induction l with
  | nil =>
    intro acc
    exact ⟨[], by simp [archivedFilterLoop]⟩
  | cons p rest ih =>
    intro acc
    simp only [archivedFilterLoop]
    rcases hl : lookupJournal js p.1 with _ | j
    · by_cases hbr : limit ≤ acc.length
      · rw [if_pos hbr]
        exact ⟨[], by simp, List.nil_sublist _⟩
      · rw [if_neg hbr]
        obtain ⟨s, hs, hsub⟩ := ih acc
        exact ⟨s, hs, List.Sublist.cons p hsub⟩
    · dsimp only
      by_cases ha : j.is_archived
      · rw [if_pos ha]
        by_cases hbr : limit ≤ acc.length
        · rw [if_pos hbr]
          exact ⟨[], by simp, List.nil_sublist _⟩
        · rw [if_neg hbr]
          obtain ⟨s, hs, hsub⟩ := ih acc
          exact ⟨s, hs, List.Sublist.cons p hsub⟩
      · rw [if_neg ha]
        by_cases hbr : limit ≤ (acc ++ [p]).length
        · rw [if_pos hbr]
          exact ⟨[p], by simp, by simp⟩
        · rw [if_neg hbr]
          obtain ⟨s, hs, hsub⟩ := ih (acc ++ [p])
          refine ⟨p :: s, by simp [hs], List.Sublist.cons₂ p hsub⟩

theorem archivedFilterLoop_pushed (js : List Journal) (limit : Nat) :
    ∀ (l acc : List (String × ℚ)),
      (∀ q ∈ acc, ∃ j, lookupJournal js q.1 = some j ∧ j.is_archived = false) →
      ∀ q ∈ archivedFilterLoop js limit acc l,
        ∃ j, lookupJournal js q.1 = some j ∧ j.is_archived = false := by
  intro l
  induction l with
  | nil =>
    intro acc hacc q hq
    exact hacc q hq
  | cons p rest ih =>
    intro acc hacc q hq
    simp only [archivedFilterLoop] at hq
    rcases hl : lookupJournal js p.1 with _ | j
    · rw [hl] at hq
      by_cases hbr : limit ≤ acc.length
      · rw [if_pos hbr] at hq
        exact hacc q hq
      · rw [if_neg hbr] at hq
        exact ih acc hacc q hq
    · rw [hl] at hq
      dsimp only at hq
      by_cases ha : j.is_archived
      · rw [if_pos ha] at hq
        by_cases hbr : limit ≤ acc.length
        · rw [if_pos hbr] at hq
          exact hacc q hq
        · rw [if_neg hbr] at hq
          exact ih acc hacc q hq
      · rw [if_neg ha] at hq
        have hacc' : ∀ q ∈ acc ++ [p],
            ∃ j, lookupJournal js q.1 = some j ∧ j.is_archived = false := by
          intro q hq'
          rcases List.mem_append.mp hq' with h | h
          · exact hacc q h
          · rw [List.mem_singleton] at h
            subst h
            exact ⟨j, hl, Bool.not_eq_true j.is_archived ▸ by simpa using ha⟩
        by_cases hbr : limit ≤ (acc ++ [p]).length
        · rw [if_pos hbr] at hq
          exact hacc' q hq
        · rw [if_neg hbr] at hq
          exact ih (acc ++ [p]) hacc' q hq

/-! ### C7: vector-channel aggregation -/

/-- C7: every result returned by vector_search carries, for its journal
id, the minimum distance observed across the entry-level vector and all
chunk vectors of that entry; the returned list is ordered by ascending
distance and contains each journal id at most once.  This holds for every
HashMap iteration order and for both values of include_archived. -/
theorem vector_search_min_distance_sorted (js : List Journal)
    (entry_results : List (String × ℚ)) (chunk_results : List ChunkHit)
    (iterV : List (String × ℚ) → List (String × ℚ)) (limit : Nat)
    (include_archived : Bool)
    (hIter : (iterV (bestScoresAssoc entry_results chunk_results)).Perm
      (bestScoresAssoc entry_results chunk_results)) :
    (∀ p ∈ vector_search js entry_results chunk_results iterV limit
        include_archived,
      listMin (distsFor entry_results chunk_results p.1) = some p.2) ∧
    (vector_search js entry_results chunk_results iterV limit
        include_archived).Pairwise (fun a b => a.2 ≤ b.2) ∧
    ((vector_search js entry_results chunk_results iterV limit
        include_archived).map Prod.fst).Nodup := by
  have hLA : (sortAsc (iterV (bestScoresAssoc entry_results
      chunk_results))).Perm (bestScoresAssoc entry_results chunk_results) :=
    (sortAsc_perm _).trans hIter
  have hsub : (vector_search js entry_results chunk_results iterV limit
      include_archived).Sublist
      (sortAsc (iterV (bestScoresAssoc entry_results chunk_results))) := by
    unfold vector_search
    by_cases h : include_archived = false
    · rw [if_pos h]
      obtain ⟨s, hs, hsl⟩ := archivedFilterLoop_shape js limit
        (sortAsc (iterV (bestScoresAssoc entry_results chunk_results))) []
      rw [hs]
      simpa using hsl
    · rw [if_neg h]
      exact List.take_sublist _ _
  refine ⟨?_, ?_, ?_⟩
  · intro p hp
    have hpL : p ∈ sortAsc (iterV (bestScoresAssoc entry_results
        chunk_results)) := List.Sublist.mem hp hsub
    have hpA : p ∈ bestScoresAssoc entry_results chunk_results :=
      hLA.mem_iff.mp hpL
    have := assocLookup_of_mem _ (bestScores_keys_nodup entry_results
      chunk_results) p hpA
    rw [bestScores_lookup] at this
    exact this
  · exact List.Pairwise.sublist hsub (sortAsc_sorted _)
  · have hnA : ((bestScoresAssoc entry_results chunk_results).map
        Prod.fst).Nodup := bestScores_keys_nodup entry_results chunk_results
    have hnL : ((sortAsc (iterV (bestScoresAssoc entry_results
        chunk_results))).map Prod.fst).Nodup :=
      ((hLA.map Prod.fst).nodup_iff).mpr hnA
    exact List.Nodup.sublist (List.Sublist.map Prod.fst hsub) hnL

/-- Witness: C7 at a concrete store, with the entry-level distance 2 and a
chunk distance 1 for the same entry, identity iteration order, limit 5 and
include_archived = true. -/
theorem vector_search_min_distance_sorted_witness :
    (∀ p ∈ vector_search [] [("a", (2 : ℚ))] [⟨"a", (1 : ℚ)⟩] id 5 true,
      listMin (distsFor [("a", (2 : ℚ))] [⟨"a", (1 : ℚ)⟩] p.1) = some p.2) ∧
    (vector_search [] [("a", (2 : ℚ))] [⟨"a", (1 : ℚ)⟩] id 5
        true).Pairwise (fun a b => a.2 ≤ b.2) ∧
    ((vector_search [] [("a", (2 : ℚ))] [⟨"a", (1 : ℚ)⟩] id 5
        true).map Prod.fst).Nodup :=
  vector_search_min_distance_sorted [] [("a", (2 : ℚ))] [⟨"a", (1 : ℚ)⟩]
    id 5 true (List.Perm.refl _)

/-! ### RRF score-map lemmas -/

theorem find?_enumFrom_none (id : String) :
    ∀ (l : List (String × ℚ)) (n : Nat), id ∉ l.map Prod.fst →
      (List.enumFrom n l).find? (fun p => decide (p.2.1 = id)) = none := by
  intro l
  induction l with
  | nil => intro n _; rfl
  | cons q t ih =>
    intro n hid
    simp only [List.map_cons, List.mem_cons, not_or] at hid
    obtain ⟨h1, h2⟩ := hid
    rw [List.enumFrom_cons, List.find?_cons]
    have : (decide ((n, q).2.1 = id)) = false := by
      simp
      exact fun e => h1 e.symm
    rw [this]
    exact ih (n + 1) h2

theorem foldl_rrfStepFts_lookup :
    ∀ (l : List (String × ℚ)) (n : Nat) (m0 : List (String × RrfVal))
      (id : String), (l.map Prod.fst).Nodup →
      assocLookup ((List.enumFrom n l).foldl rrfStepFts m0) id =
        match (List.enumFrom n l).find? (fun p => decide (p.2.1 = id)) with
        | some p =>
          some ⟨((assocLookup m0 id).getD ⟨0, none, none⟩).score +
              rrfScoreAt p.1, some (p.1 + 1),
            ((assocLookup m0 id).getD ⟨0, none, none⟩).vec_rank⟩
        | none => assocLookup m0 id := by
  intro l
  induction l with
  | nil => intro n m0 id _; rfl
  | cons q t ih =>
    intro n m0 id hnd
    obtain ⟨k, s⟩ := q
    simp only [List.map_cons, List.nodup_cons] at hnd
    obtain ⟨hk, ht⟩ := hnd
    rw [List.enumFrom_cons, List.foldl_cons, List.find?_cons]
    by_cases h : k = id
    · subst h
      have hpred : (decide ((n, (k, s)).2.1 = k)) = true := by simp
      rw [hpred]
      have hnone := find?_enumFrom_none k t (n + 1) hk
      rw [ih (n + 1) (rrfStepFts m0 (n, (k, s))) k ht, hnone]
      have : assocLookup (rrfStepFts m0 (n, (k, s))) k =
          some ⟨((assocLookup m0 k).getD ⟨0, none, none⟩).score +
            rrfScoreAt n, some (n + 1),
            ((assocLookup m0 k).getD ⟨0, none, none⟩).vec_rank⟩ := by
        unfold rrfStepFts
        rw [assocLookup_mapUpd, if_pos rfl]
      rw [this]
    · have hpred : (decide ((n, (k, s)).2.1 = id)) = false := by
        simp
        exact h
      rw [hpred]
      rw [ih (n + 1) (rrfStepFts m0 (n, (k, s))) id ht]
      have hsame : assocLookup (rrfStepFts m0 (n, (k, s))) id =
          assocLookup m0 id := by
        unfold rrfStepFts
        rw [assocLookup_mapUpd, if_neg (Ne.symm h)]
      rw [hsame]

theorem foldl_rrfStepVec_lookup :
    ∀ (l : List (String × ℚ)) (n : Nat) (m0 : List (String × RrfVal))
      (id : String), (l.map Prod.fst).Nodup →
      assocLookup ((List.enumFrom n l).foldl rrfStepVec m0) id =
        match (List.enumFrom n l).find? (fun p => decide (p.2.1 = id)) with
        | some p =>
          some ⟨((assocLookup m0 id).getD ⟨0, none, none⟩).score +
              rrfScoreAt p.1,
            ((assocLookup m0 id).getD ⟨0, none, none⟩).fts_rank,
            some (p.1 + 1)⟩
        | none => assocLookup m0 id := by
  intro l
  induction l with
  | nil => intro n m0 id _; rfl
  | cons q t ih =>
    intro n m0 id hnd
    obtain ⟨k, s⟩ := q
    simp only [List.map_cons, List.nodup_cons] at hnd
    obtain ⟨hk, ht⟩ := hnd
    rw [List.enumFrom_cons, List.foldl_cons, List.find?_cons]
    by_cases h : k = id
    · subst h
      have hpred : (decide ((n, (k, s)).2.1 = k)) = true := by simp
      rw [hpred]
      have hnone := find?_enumFrom_none k t (n + 1) hk
      rw [ih (n + 1) (rrfStepVec m0 (n, (k, s))) k ht, hnone]
      have : assocLookup (rrfStepVec m0 (n, (k, s))) k =
          some ⟨((assocLookup m0 k).getD ⟨0, none, none⟩).score +
            rrfScoreAt n,
            ((assocLookup m0 k).getD ⟨0, none, none⟩).fts_rank,
            some (n + 1)⟩ := by
        unfold rrfStepVec
        rw [assocLookup_mapUpd, if_pos rfl]
      rw [this]
    · have hpred : (decide ((n, (k, s)).2.1 = id)) = false := by
        simp
        exact h
      rw [hpred]
      rw [ih (n + 1) (rrfStepVec m0 (n, (k, s))) id ht]
      have hsame : assocLookup (rrfStepVec m0 (n, (k, s))) id =
          assocLookup m0 id := by
        unfold rrfStepVec
        rw [assocLookup_mapUpd, if_neg (Ne.symm h)]
      rw [hsame]

/-! ### C6: the RRF score formula -/

/-- C6: when each channel lists an id at most once (as the SQL and the
best_scores aggregation guarantee), an entity's combined_score in the RRF
scores map equals the sum over the channels it appears in of 1/(60 + r)
with r its 1-based rank (0 from a channel it is absent from); and for a
single hit at lexical rank 1 with an empty vector channel, the fused
output carries combined_score exactly 1/(60+1). -/
theorem rrf_score_formula :
    (∀ (fts vec : List (String × ℚ)),
      (fts.map Prod.fst).Nodup → (vec.map Prod.fst).Nodup →
      ∀ (id : String) (v : RrfVal),
        assocLookup (rrfAssoc fts vec) id = some v →
        v.score = rrfContrib fts id + rrfContrib vec id) ∧
    reciprocal_rank_fusion (rrfAssoc [("a", (1 : ℚ))] []) 10 =
      [("a", ⟨1 / (60 + 1), some 1, none⟩)] := by
  constructor
  · intro fts vec hf hv id v hlk
    unfold rrfAssoc at hlk
    rw [show vec.enum = List.enumFrom 0 vec from rfl,
      show fts.enum = List.enumFrom 0 fts from rfl] at hlk
    rw [foldl_rrfStepVec_lookup vec 0 _ id hv] at hlk
    rw [foldl_rrfStepFts_lookup fts 0 [] id hf] at hlk
    unfold rrfContrib rank1
    rw [show fts.enum = List.enumFrom 0 fts from rfl,
      show vec.enum = List.enumFrom 0 vec from rfl]
    rcases hff : (List.enumFrom 0 fts).find?
        (fun p => decide (p.2.1 = id)) with _ | pf
    · rcases hfv : (List.enumFrom 0 vec).find?
          (fun p => decide (p.2.1 = id)) with _ | pv
      · rw [hff, hfv] at hlk
        exact absurd hlk (by simp [assocLookup])
      · rw [hff, hfv] at hlk
        rw [hff, hfv]
        simp only [Option.some.injEq] at hlk
        subst hlk
        dsimp only
        simp only [assocLookup, Option.getD_none]
        unfold rrfScoreAt
        push_cast
        ring
    · rcases hfv : (List.enumFrom 0 vec).find?
          (fun p => decide (p.2.1 = id)) with _ | pv
      · rw [hff, hfv] at hlk
        rw [hff, hfv]
        simp only [Option.some.injEq] at hlk
        subst hlk
        dsimp only
        simp only [assocLookup, Option.getD_none, Option.getD_some]
        unfold rrfScoreAt
        push_cast
        ring
      · rw [hff, hfv] at hlk
        rw [hff, hfv]
        simp only [Option.some.injEq] at hlk
        subst hlk
        dsimp only
        simp only [assocLookup, Option.getD_none, Option.getD_some]
        unfold rrfScoreAt
        push_cast
        ring
  · have e : reciprocal_rank_fusion (rrfAssoc [("a", (1 : ℚ))] []) 10 =
        [("a", ⟨0 + rrfScoreAt 0, some 1, none⟩)] := rfl
    rw [e]
    have hsc : (0 : ℚ) + rrfScoreAt 0 = 1 / (60 + 1) := by
      unfold rrfScoreAt RRF_K
      norm_num
    rw [hsc]

/-- Witness: the general RRF score formula applied at a concrete pair of
channels where id y ranks 2nd lexically and 1st in the vector channel. -/
theorem rrf_score_formula_witness :
    ∃ v : RrfVal,
      assocLookup (rrfAssoc [("x", (1 : ℚ)), ("y", 2)] [("y", (3 : ℚ))]) "y" =
        some v ∧
      v.score = rrfContrib [("x", (1 : ℚ)), ("y", 2)] "y" +
        rrfContrib [("y", (3 : ℚ))] "y" := by
  refine ⟨_, rfl, ?_⟩
  exact rrf_score_formula.1 [("x", (1 : ℚ)), ("y", 2)] [("y", (3 : ℚ))]
    (by decide) (by decide) "y" _ rfl

/-! ### C3: fusion determinism -/

theorem sortDesc_pair (x y : String × RrfVal) (h : y.2.score ≤ x.2.score) :
    sortDesc [x, y] = [x, y] := by
  show insertDesc x (insertDesc y []) = [x, y]
  have e : insertDesc y [] = [y] := rfl
  rw [e]
  simp only [insertDesc, if_pos h]

/-- C3 (refuting determinism on ties): with the lexical channel ranking
only id a and the vector channel ranking only id b, both ids get combined
score 1/61; iterating the scores HashMap in its insertion order versus
the reversed order — both legitimate hash iteration orders, being
permutations of the same map — yields the two outputs [a, b] and [b, a],
so the fused sequence depends on the map iteration order. -/
theorem rrf_tie_order_dependent :
    ((rrfAssoc [("a", (1 : ℚ))] [("b", (1 : ℚ))]).reverse).Perm
      (rrfAssoc [("a", (1 : ℚ))] [("b", (1 : ℚ))]) ∧
    reciprocal_rank_fusion (rrfAssoc [("a", (1 : ℚ))] [("b", (1 : ℚ))]) 10 ≠
      reciprocal_rank_fusion
        ((rrfAssoc [("a", (1 : ℚ))] [("b", (1 : ℚ))]).reverse) 10 := by
  constructor
  · exact List.reverse_perm _
  · intro h
    have e1 : rrfAssoc [("a", (1 : ℚ))] [("b", (1 : ℚ))] =
        [("a", ⟨0 + rrfScoreAt 0, some 1, none⟩),
         ("b", ⟨0 + rrfScoreAt 0, none, some 1⟩)] := rfl
    rw [e1] at h
    have e2 : reciprocal_rank_fusion
        [("a", (⟨0 + rrfScoreAt 0, some 1, none⟩ : RrfVal)),
         ("b", ⟨0 + rrfScoreAt 0, none, some 1⟩)] 10 =
        [("a", ⟨0 + rrfScoreAt 0, some 1, none⟩),
         ("b", ⟨0 + rrfScoreAt 0, none, some 1⟩)] := by
      unfold reciprocal_rank_fusion
      rw [sortDesc_pair ("a", ⟨0 + rrfScoreAt 0, some 1, none⟩)
        ("b", ⟨0 + rrfScoreAt 0, none, some 1⟩) (le_refl _)]
      rfl
    have e3 : reciprocal_rank_fusion
        ([("a", (⟨0 + rrfScoreAt 0, some 1, none⟩ : RrfVal)),
          ("b", ⟨0 + rrfScoreAt 0, none, some 1⟩)].reverse) 10 =
        [("b", ⟨0 + rrfScoreAt 0, none, some 1⟩),
         ("a", ⟨0 + rrfScoreAt 0, some 1, none⟩)] := by
      have er : [("a", (⟨0 + rrfScoreAt 0, some 1, none⟩ : RrfVal)),
          ("b", ⟨0 + rrfScoreAt 0, none, some 1⟩)].reverse =
          [("b", ⟨0 + rrfScoreAt 0, none, some 1⟩),
           ("a", ⟨0 + rrfScoreAt 0, some 1, none⟩)] := rfl
      rw [er]
      unfold reciprocal_rank_fusion
      rw [sortDesc_pair ("b", ⟨0 + rrfScoreAt 0, none, some 1⟩)
        ("a", ⟨0 + rrfScoreAt 0, some 1, none⟩) (le_refl _)]
      rfl
    rw [e2, e3] at h
    simp only [List.cons.injEq, Prod.mk.injEq] at h
    exact absurd h.1.1 (by decide)

theorem sorted_perm_eq :
    ∀ (l1 l2 : List (String × RrfVal)), l1.Perm l2 →
      l1.Pairwise (fun a b => b.2.score ≤ a.2.score) →
      l2.Pairwise (fun a b => b.2.score ≤ a.2.score) →
      l1.Pairwise (fun a b => a.2.score ≠ b.2.score) →
      l1 = l2 := by
  intro l1
  induction l1 with
  | nil =>
    intro l2 hp _ _ _
    exact (hp.symm.eq_nil).symm
  | cons a t1 ih =>
    intro l2 hp hs1 hs2 hd
    cases l2 with
    | nil => cases hp.eq_nil
    | cons b t2 =>
      have hab : a = b := by
        by_contra hne
        have hbmem : b ∈ a :: t1 := hp.mem_iff.mpr (List.mem_cons_self b t2)
        have hamem : a ∈ b :: t2 := hp.mem_iff.mp (List.mem_cons_self a t1)
        have h1 : b.2.score ≤ a.2.score := by
          rcases List.mem_cons.mp hbmem with h | h
          · exact absurd h.symm hne
          · exact (List.pairwise_cons.mp hs1).1 b h
        have h2 : a.2.score ≤ b.2.score := by
          rcases List.mem_cons.mp hamem with h | h
          · exact absurd h hne
          · exact (List.pairwise_cons.mp hs2).1 a h
        have heq : a.2.score = b.2.score := le_antisymm h2 h1
        have hsymm : Symmetric (fun p q : String × RrfVal =>
            p.2.score ≠ q.2.score) := fun x y hxy => hxy.symm
        exact (List.Pairwise.forall hsymm hd (List.mem_cons_self a t1)
          hbmem hne) heq
      subst hab
      have hpt : t1.Perm t2 := (List.perm_cons a).mp hp
      rw [ih t2 hpt (List.pairwise_cons.mp hs1).2
        (List.pairwise_cons.mp hs2).2 (List.pairwise_cons.mp hd).2]

/-- C3 (amended): rank fusion is deterministic whenever the combined
scores in the scores map are pairwise distinct: any two hash iteration
orders of the map (any two permutations of it) produce the same fused
output sequence.  With exactly tied combined scores the order of the tied
entries follows the unspecified HashMap iteration order (see the
counterexample). -/
theorem rrf_deterministic_distinct_scores (fts vec : List (String × ℚ))
    (o1 o2 : List (String × RrfVal)) (limit : Nat)
    (h1 : o1.Perm (rrfAssoc fts vec)) (h2 : o2.Perm (rrfAssoc fts vec))
    (hd : (rrfAssoc fts vec).Pairwise (fun a b => a.2.score ≠ b.2.score)) :
    reciprocal_rank_fusion o1 limit = reciprocal_rank_fusion o2 limit := by
  have hp : (sortDesc o1).Perm (sortDesc o2) :=
    (sortDesc_perm o1).trans
      (h1.trans (h2.symm.trans (sortDesc_perm o2).symm))
  have hsymm : ∀ {x y : String × RrfVal},
      x.2.score ≠ y.2.score → y.2.score ≠ x.2.score := fun hxy => hxy.symm
  have hd1 : (sortDesc o1).Pairwise (fun a b => a.2.score ≠ b.2.score) :=
    (List.Perm.pairwise_iff hsymm ((sortDesc_perm o1).trans h1)).mpr hd
  have he := sorted_perm_eq (sortDesc o1) (sortDesc o2) hp
    (sortDesc_sorted o1) (sortDesc_sorted o2) hd1
  unfold reciprocal_rank_fusion
  rw [he]

/-- Witness: determinism of fusion at concrete channels with distinct
combined scores, comparing the canonical iteration order with the
reversed one. -/
theorem rrf_deterministic_distinct_scores_witness :
    reciprocal_rank_fusion (rrfAssoc [("a", (1 : ℚ)), ("b", 2)] []) 10 =
      reciprocal_rank_fusion
        ((rrfAssoc [("a", (1 : ℚ)), ("b", 2)] []).reverse) 10 := by
  refine rrf_deterministic_distinct_scores [("a", (1 : ℚ)), ("b", 2)] []
    _ _ 10 (List.Perm.refl _) (List.reverse_perm _) ?_
  have e : rrfAssoc [("a", (1 : ℚ)), ("b", 2)] [] =
      [("a", ⟨0 + rrfScoreAt 0, some 1, none⟩),
       ("b", ⟨0 + rrfScoreAt 1, some 2, none⟩)] := rfl
  rw [e]
  refine List.Pairwise.cons ?_ (by simp)
  intro x hx
  rw [List.mem_singleton] at hx
  subst hx
  show (0 : ℚ) + rrfScoreAt 0 ≠ 0 + rrfScoreAt 1
  unfold rrfScoreAt RRF_K
  norm_num

/-! ### C2: orphaned vectors in hybrid search -/

/-- C2 (refuting the claim for include_archived = true): with an empty
journals store and a stored entry-level vector for id x, hybrid_search
with include_archived = true propagates the orphaned id as a NotFound
error instead of skipping it: the archived-filter branch (the only place
orphans are dropped) is not taken, so the orphan reaches the
journals::get fetch loop. -/
theorem hybrid_search_orphan_error :
    hybrid_search [] [] [("x", (2 : ℚ))] [] id id true 10 true =
      Except.error "Journal entry not found: x" := rfl

theorem enumFrom_keys :
    ∀ (l : List (String × ℚ)) (n : Nat),
      (List.enumFrom n l).map (fun q => q.2.1) = l.map Prod.fst := by
  intro l
  induction l with
  | nil => intro n; rfl
  | cons q t ih =>
    intro n
    rw [List.enumFrom_cons, List.map_cons, List.map_cons, ih]

theorem foldl_keys_sub
    (step : List (String × RrfVal) → Nat × (String × ℚ) →
      List (String × RrfVal))
    (hstep : ∀ m q k, k ∈ (step m q).map Prod.fst →
      k = q.2.1 ∨ k ∈ m.map Prod.fst) :
    ∀ (l : List (Nat × (String × ℚ))) (m0 : List (String × RrfVal))
      (k : String), k ∈ (l.foldl step m0).map Prod.fst →
      k ∈ m0.map Prod.fst ∨ k ∈ l.map (fun q => q.2.1) := by
  intro l
  induction l with
  | nil => intro m0 k h; exact Or.inl h
  | cons q t ih =>
    intro m0 k h
    rw [List.foldl_cons] at h
    rcases ih (step m0 q) k h with h' | h'
    · rcases hstep m0 q k h' with h'' | h''
      · exact Or.inr (List.mem_cons.mpr (Or.inl h''))
      · exact Or.inl h''
    · exact Or.inr (List.mem_cons.mpr (Or.inr h'))

theorem rrfAssoc_keys (fts vec : List (String × ℚ)) (k : String)
    (hk : k ∈ (rrfAssoc fts vec).map Prod.fst) :
    k ∈ fts.map Prod.fst ∨ k ∈ vec.map Prod.fst := by
  unfold rrfAssoc at hk
  have hstepV : ∀ m q k', k' ∈ (rrfStepVec m q).map Prod.fst →
      k' = q.2.1 ∨ k' ∈ m.map Prod.fst := by
    intro m q k' h
    exact mapUpd_keys m q.2.1 _ k' h
  have hstepF : ∀ m q k', k' ∈ (rrfStepFts m q).map Prod.fst →
      k' = q.2.1 ∨ k' ∈ m.map Prod.fst := by
    intro m q k' h
    exact mapUpd_keys m q.2.1 _ k' h
  rcases foldl_keys_sub rrfStepVec hstepV vec.enum _ k hk with h | h
  · rcases foldl_keys_sub rrfStepFts hstepF fts.enum [] k h with h' | h'
    · cases h'
    · rw [show fts.enum = List.enumFrom 0 fts from rfl, enumFrom_keys] at h'
      exact Or.inl h'
  · rw [show vec.enum = List.enumFrom 0 vec from rfl, enumFrom_keys] at h
    exact Or.inr h

theorem fetchJournals_ok (js : List Journal) :
    ∀ (l : List (String × RrfVal)),
      (∀ p ∈ l, (lookupJournal js p.1).isSome) →
      ∃ rs, fetchJournals js l = Except.ok rs := by
  intro l
  induction l with
  | nil => intro _; exact ⟨[], rfl⟩
  | cons p t ih =>
    intro h
    obtain ⟨k, v⟩ := p
    have hh := h (k, v) (List.mem_cons_self _ _)
    rw [Option.isSome_iff_exists] at hh
    obtain ⟨j, hj⟩ := hh
    obtain ⟨rs, hrs⟩ := ih (fun q hq => h q (List.mem_cons_of_mem _ hq))
    refine ⟨⟨j, v.score, v.fts_rank, v.vec_rank⟩ :: rs, ?_⟩
    simp only [fetchJournals, journals_get, hj, hrs]

/-- C2 (amended): with include_archived = false — the only configuration
in which the code filters the vector channel — every orphaned vector id
is logged and skipped inside vector_search, and hybrid_search returns
successfully: given that every FTS hit references an existing journal row
(guaranteed by the SQL join), no NotFound error is propagated, for every
store, every pair of vector pools, and every HashMap iteration order. -/
theorem hybrid_search_orphan_skip_unarchived (js : List Journal)
    (fts entry_results : List (String × ℚ)) (chunk_results : List ChunkHit)
    (iterV : List (String × ℚ) → List (String × ℚ))
    (iterR : List (String × RrfVal) → List (String × RrfVal)) (limit : Nat)
    (hR : (iterR (rrfAssoc fts (vector_search js entry_results
        chunk_results iterV (limit * 2) false))).Perm
      (rrfAssoc fts (vector_search js entry_results chunk_results iterV
        (limit * 2) false)))
    (hf : ∀ p ∈ fts, (lookupJournal js p.1).isSome) :
    ∃ rs, hybrid_search js fts entry_results chunk_results iterV iterR
      true limit false = Except.ok rs := by
  have e : hybrid_search js fts entry_results chunk_results iterV iterR
      true limit false =
      fetchJournals js (reciprocal_rank_fusion
        (iterR (rrfAssoc fts (vector_search js entry_results chunk_results
          iterV (limit * 2) false))) limit) := rfl
  rw [e]
  apply fetchJournals_ok
  intro p hp
  have hpt : p ∈ sortDesc (iterR (rrfAssoc fts (vector_search js
      entry_results chunk_results iterV (limit * 2) false))) :=
    List.Sublist.mem hp (List.take_sublist _ _)
  have hpo : p ∈ iterR (rrfAssoc fts (vector_search js entry_results
      chunk_results iterV (limit * 2) false)) :=
    (sortDesc_perm _).mem_iff.mp hpt
  have hpA : p ∈ rrfAssoc fts (vector_search js entry_results
      chunk_results iterV (limit * 2) false) := hR.mem_iff.mp hpo
  have hkmem : p.1 ∈ (rrfAssoc fts (vector_search js entry_results
      chunk_results iterV (limit * 2) false)).map Prod.fst :=
    List.mem_map_of_mem Prod.fst hpA
  rcases rrfAssoc_keys _ _ p.1 hkmem with h | h
  · obtain ⟨q, hq, hq1⟩ := List.mem_map.mp h
    rw [← hq1]
    exact hf q hq
  · obtain ⟨q, hq, hq1⟩ := List.mem_map.mp h
    have ev : vector_search js entry_results chunk_results iterV
        (limit * 2) false = archivedFilterLoop js (limit * 2) []
        (sortAsc (iterV (bestScoresAssoc entry_results chunk_results))) := by
      unfold vector_search
      rw [if_pos rfl]
    rw [ev] at hq
    obtain ⟨j, hj, _⟩ := archivedFilterLoop_pushed js (limit * 2) _ []
      (by intro q' hq'; cases hq') q hq
    rw [← hq1, hj]
    rfl

/-- Witness: a store with one live journal a, an orphaned vector for the
deleted id x plus a live vector for a, include_archived = false: the
search succeeds. -/
theorem hybrid_search_orphan_skip_unarchived_witness :
    ∃ rs, hybrid_search [⟨"a", "hello", "2024", false⟩] [("a", (1 : ℚ))]
      [("x", (2 : ℚ)), ("a", (3 : ℚ))] [] id id true 5 false =
      Except.ok rs :=
  hybrid_search_orphan_skip_unarchived [⟨"a", "hello", "2024", false⟩]
    [("a", (1 : ℚ))] [("x", (2 : ℚ)), ("a", (3 : ℚ))] [] id id 5
    (List.Perm.refl _) (by decide)

end MindScribe
